import Mathlib

/-!
Verification of the IDX stock screener (`app.py`): a shallow embedding of the
universe resolver, the screening engine and the batch scanner, with proofs of
the behavioural properties stated in the specification.

Prices and volumes are modelled as rationals (the source works on floating
point numbers; all properties proved here are exact-arithmetic facts).
Network fetches are modelled as explicit `Except` values passed to the
functions that consume them, so that a provider exception becomes an
`Except.error` input.  Ticker strings handled by the manual-input cleaner are
modelled at the code-point level as `List ℕ` (ASCII semantics of
`str.strip`, `str.upper`, `str.split`, `str.replace`).
-/

namespace StockApp

/-- One daily OHLCV bar, reduced to the fields the screener reads
(`Close` and `Volume`). -/
structure DailyBar where
  close : ℚ
  volume : ℚ
deriving DecidableEq, Repr

/-- The `Close` column of a history. -/
def closes (hist : List DailyBar) : List ℚ := hist.map DailyBar.close

/-- Day-over-day percentage change, `(prices[i+1] - prices[i]) / prices[i] * 100`
as computed in `check_consecutive_day_increase`. -/
def pctChange (a b : ℚ) : ℚ := (b - a) / a * 100

/-- Embeds `check_consecutive_day_increase(hist, threshold, num_days)`:
takes the last `num_days + 1` closes, computes the `num_days` day-over-day
percentage changes, and succeeds when every change is `>= threshold`.
Returns `(ok, changes, prices)` exactly as the source does. -/
def check_consecutive_day_increase (hist : List DailyBar) (threshold : ℚ)
    (num_days : ℕ) : Bool × List ℚ × List ℚ :=
  if hist.length < num_days + 1 then (false, [], [])
  else
    let prices := closes (hist.drop (hist.length - (num_days + 1)))
    let changes := List.zipWith pctChange prices prices.tail
    (changes.all (fun ch => decide (threshold ≤ ch)), changes, prices)

/-- Embeds `calculate_trading_value(hist)`: last close times last volume, `0` for an
empty history. -/
def calculate_trading_value (hist : List DailyBar) : ℚ :=
  match hist.getLast? with
  | none => 0
  | some b => b.close * b.volume

/-- One step of pandas' `ewm(alpha, adjust=False).mean()` recurrence:
`y_t = (1 - α) * y_(t-1) + α * x_t`. -/
def ewmStep (α : ℚ) (a x : ℚ) : ℚ := (1 - α) * a + α * x

/-- Last value of the `adjust=False` exponentially weighted mean of a series
(seeded with the first element). -/
def ewmLast (α : ℚ) : List ℚ → ℚ
  | [] => 0
  | x :: xs => xs.foldl (ewmStep α) x

/-- Consecutive differences of a series, `pd.Series(prices).diff()` without
the leading `NaN`. -/
def priceDiffs (l : List ℚ) : List ℚ := List.zipWith (fun a b => b - a) l l.tail

/-- The gains series `deltas.where(deltas > 0, 0)`.  The leading `NaN` of
`diff()` compares false against `0`, hence the leading `0`. -/
def gainsOf (prices : List ℚ) : List ℚ :=
  0 :: (priceDiffs prices).map (fun d => if 0 < d then d else 0)

/-- The losses series `-deltas.where(deltas < 0, 0)` (non-negative). -/
def lossesOf (prices : List ℚ) : List ℚ :=
  0 :: (priceDiffs prices).map (fun d => if d < 0 then -d else 0)

/-- Wilder-smoothed average gain `gains.ewm(alpha=1/period, adjust=False).mean()`,
last value. -/
def avgGain (hist : List DailyBar) (period : ℕ) : ℚ :=
  ewmLast (1 / period) (gainsOf (closes hist))

/-- Wilder-smoothed average loss, last value. -/
def avgLoss (hist : List DailyBar) (period : ℕ) : ℚ :=
  ewmLast (1 / period) (lossesOf (closes hist))

/-- Embeds `calculate_rsi(hist, period)`: `None` on fewer than `period + 1` bars;
otherwise the degenerate branches (`ll == 0`, `lg == 0`) and the generic
`100 - 100 / (1 + rs)` formula. -/
def calculate_rsi (hist : List DailyBar) (period : ℕ) : Option ℚ :=
  if hist.length < period + 1 then none
  else
    let lg := avgGain hist period
    let ll := avgLoss hist period
    if ll = 0 then some (if 0 < lg then 100 else 50)
    else if lg = 0 then some 0
    else some (100 - 100 / (1 + lg / ll))

/-- Embeds `calculate_sma(hist, period)`: `None` on fewer than `period` bars,
otherwise the arithmetic mean of the last `period` closes
(`rolling(window=period).mean().iloc[-1]`). -/
def calculate_sma (hist : List DailyBar) (period : ℕ) : Option ℚ :=
  if hist.length < period then none
  else some ((closes (hist.drop (hist.length - period))).sum / period)

/-- Embeds `calculate_ema(hist, period)`: `None` on fewer than `period` bars,
otherwise `ewm(span=period, adjust=False).mean()`'s last value, with
`α = 2 / (span + 1)`. -/
def calculate_ema (hist : List DailyBar) (period : ℕ) : Option ℚ :=
  if hist.length < period then none
  else some (ewmLast (2 / (period + 1)) (closes hist))

/-- Embeds `calculate_volume_trend(hist, period)`: percent change between the mean
volume of the last `period` bars and the mean volume of the preceding
`period` bars; `None` on insufficient history or a zero previous average. -/
def calculate_volume_trend (hist : List DailyBar) (period : ℕ) : Option ℚ :=
  if hist.length < period * 2 then none
  else
    let vols := hist.map DailyBar.volume
    let recentAvg := (vols.drop (vols.length - period)).sum / period
    let previousAvg := ((vols.drop (vols.length - period * 2)).take period).sum / period
    if previousAvg = 0 then none
    else some ((recentAvg - previousAvg) / previousAvg * 100)

/-- The market-suffix literal of the source. -/
def jkStr : String := ".JK"

/-- The empty string literal. -/
def emptyStr : String := ""

/-- Embeds `ticker.replace(".JK", "")`. -/
def stripJK (t : String) : String := t.replace jkStr emptyStr

/-- Python truthiness of `a or b` on an optional string: an absent or empty
string falls through to `b`. -/
def pyStrOr (a : Option String) (b : String) : String :=
  match a with
  | some s => if s = emptyStr then b else s
  | none => b

/-- One row of the result table built by `process_single_stock`.  Numeric
indicator cells are modelled as values rather than the source's formatted
strings; an outer `none` means indicators were not requested, an inner
`none` is the source's explicit `"N/A"` marker. -/
structure ScanRow where
  kode : String
  nama : String
  harga : ℚ
  nilaiTransaksi : ℚ
  kenaikan : List ℚ
  rsi : Option (Option ℚ)
  sma20 : Option (Option ℚ)
  ema20 : Option (Option ℚ)
  volumeTrend : Option (Option ℚ)
deriving DecidableEq, Repr

/-- Outcome of `process_single_stock`: `{'success': True, 'data': row}`,
`{'success': True, 'data': None}`, or `{'success': False, 'error': e,
'ticker': t}`. -/
inductive StockResult where
  | success (data : Option ScanRow)
  | failure (ticker : String) (error : String)
deriving DecidableEq, Repr

/-- Embeds `process_single_stock(ticker, ...)`.  The `get_stock_data` call is
modelled by the `fetched` argument: an `Except.error` input is the provider
exception captured by the source's `try`/`except`, which turns it into the
failure outcome.  With enough bars, the consecutive-increase rule is checked
first and the turnover rule only on success (short-circuit); otherwise the
result is a success carrying no row. -/
def process_single_stock (ticker : String)
    (fetched : Except String (List DailyBar))
    (min_trading_value price_threshold : ℚ) (num_consecutive_days : ℕ)
    (include_indicators : Bool) (name_map : String → Option String)
    (longName : Option String) : StockResult :=
  match fetched with
  | .error e => .failure ticker e
  | .ok hist =>
    if num_consecutive_days + 1 ≤ hist.length then
      let r := check_consecutive_day_increase hist price_threshold num_consecutive_days
      if r.1 then
        let tv := calculate_trading_value hist
        if min_trading_value ≤ tv then
          let code := stripJK ticker
          .success (some
            { kode := code
              nama := pyStrOr (name_map ticker) (pyStrOr longName code)
              harga := r.2.2.getLastD 0
              nilaiTransaksi := tv
              kenaikan := r.2.1
              rsi := if include_indicators then some (calculate_rsi hist 14) else none
              sma20 := if include_indicators then some (calculate_sma hist 20) else none
              ema20 := if include_indicators then some (calculate_ema hist 20) else none
              volumeTrend := if include_indicators then some (calculate_volume_trend hist 5) else none })
        else .success none
      else .success none
    else .success none

/-- One failure record `{'ticker': t, 'error': e}` of the batch scanner. -/
structure ScanFailure where
  ticker : String
  error : String
deriving DecidableEq, Repr

/-- The scan criteria threaded through the batch scanner. -/
structure ScanConfig where
  min_trading_value : ℚ
  price_threshold : ℚ
  num_consecutive_days : ℕ
  include_indicators : Bool
deriving DecidableEq, Repr

/-- The screening engine applied to one ticker, with the provider modelled
by `fetchOf` and the `longName` lookup by `longNameOf`. -/
def evalTicker (cfg : ScanConfig) (fetchOf : String → Except String (List DailyBar))
    (name_map : String → Option String) (longNameOf : String → Option String)
    (t : String) : StockResult :=
  process_single_stock t (fetchOf t) cfg.min_trading_value cfg.price_threshold
    cfg.num_consecutive_days cfg.include_indicators name_map (longNameOf t)

/-- The loop body of `scan_stocks_with_progress`: append a produced row to
the result list, a failure to the failure list, skip a no-match. -/
def scanStep (cfg : ScanConfig) (fetchOf : String → Except String (List DailyBar))
    (name_map : String → Option String) (longNameOf : String → Option String)
    (acc : List ScanRow × List ScanFailure) (t : String) :
    List ScanRow × List ScanFailure :=
  match evalTicker cfg fetchOf name_map longNameOf t with
  | .success (some d) => (acc.1 ++ [d], acc.2)
  | .success none => acc
  | .failure tk e => (acc.1, acc.2 ++ [⟨tk, e⟩])

/-- Embeds `scan_stocks_with_progress(tickers, ...)`: iterate the screening engine
over the tickers in input order, collecting rows and failures.  The progress
bar, the status text and the per-50-item `time.sleep` are side effects with
no bearing on the returned value. -/
def scan_stocks_with_progress (tickers : List String) (cfg : ScanConfig)
    (fetchOf : String → Except String (List DailyBar))
    (name_map : String → Option String) (longNameOf : String → Option String) :
    List ScanRow × List ScanFailure :=
  tickers.foldl (scanStep cfg fetchOf name_map longNameOf) ([], [])

/-- The row produced by one ticker's outcome, if any. -/
def rowOf : StockResult → Option ScanRow
  | .success d => d
  | .failure _ _ => none

/-- The failure record produced by one ticker's outcome, if any. -/
def failOf : StockResult → Option ScanFailure
  | .failure tk e => some ⟨tk, e⟩
  | .success _ => none

/-- The embedded static fallback universe (`STATIC_FALLBACK`). -/
def STATIC_FALLBACK : List String :=
  ["BBCA.JK", "BBRI.JK", "BMRI.JK", "BBNI.JK", "TLKM.JK", "ASII.JK", "UNVR.JK",
   "HMSP.JK", "ICBP.JK", "KLBF.JK", "INDF.JK", "GGRM.JK", "UNTR.JK", "ADRO.JK",
   "PTBA.JK", "ANTM.JK", "TOWR.JK", "ISAT.JK", "EXCL.JK", "PGAS.JK"]

/-- A symbol-to-display-name mapping, as an association list. -/
abbrev NameMap := List (String × String)

/-- The name map `{s: s.replace(".JK", "") for s in STATIC_FALLBACK}` built
in every fallback branch. -/
def staticNameMap : NameMap := STATIC_FALLBACK.map (fun s => (s, stripJK s))

/-- The source-mode radio options. -/
inductive SourceMode where
  | auto
  | yahooOnly
  | idxOnly
  | manual
deriving DecidableEq, Repr

/-- What one upstream fetch function returns: `(symbols, names, errors)`. -/
structure FetchResult where
  syms : List String
  names : NameMap
  errs : List String
deriving DecidableEq, Repr

/-- The diagnostic string appended when a mode falls back to the static
list. -/
def fallbackMsg : SourceMode → String
  | .auto => "Auto empty → fallback STATIC"
  | .yahooOnly => "Yahoo empty → fallback STATIC"
  | .idxOnly => "IDX empty → fallback STATIC"
  | .manual => "Manual empty → fallback STATIC"

/-- Embeds `resolve_universe(mode, ...)`.  The network fetches
(`fetch_from_yahoo_search_verbose`, `fetch_from_idx_verbose`) and the manual
parse (`fetch_from_manual`) are modelled by the `yahoo`, `idx`,
`manualSyms`/`manualNames` arguments; each fetch already swallows its own
exceptions and reports them as diagnostic strings, so `resolve_universe`
itself is total.  A mode whose source comes back empty returns the static
fallback list plus a diagnostic; Auto tries Yahoo, then IDX, then the
static list. -/
def resolve_universe (mode : SourceMode) (yahoo idx : FetchResult)
    (manualSyms : List String) (manualNames : NameMap) :
    List String × NameMap × List String :=
  match mode with
  | .yahooOnly =>
    if yahoo.syms = [] then
      (STATIC_FALLBACK, staticNameMap, yahoo.errs ++ [fallbackMsg .yahooOnly])
    else (yahoo.syms, yahoo.names, yahoo.errs)
  | .idxOnly =>
    if idx.syms = [] then
      (STATIC_FALLBACK, staticNameMap, idx.errs ++ [fallbackMsg .idxOnly])
    else (idx.syms, idx.names, idx.errs)
  | .manual =>
    if manualSyms = [] then
      (STATIC_FALLBACK, staticNameMap, [fallbackMsg .manual])
    else (manualSyms, manualNames, [])
  | .auto =>
    if yahoo.syms ≠ [] then (yahoo.syms, yahoo.names, yahoo.errs)
    else if idx.syms ≠ [] then (idx.syms, idx.names, yahoo.errs ++ idx.errs)
    else (STATIC_FALLBACK, staticNameMap,
      yahoo.errs ++ idx.errs ++ [fallbackMsg .auto])

/-- For each mode, the condition under which every live (or manual) source
yielded an empty result. -/
def liveEmpty (mode : SourceMode) (yahoo idx : FetchResult)
    (manualSyms : List String) : Prop :=
  match mode with
  | .auto => yahoo.syms = [] ∧ idx.syms = []
  | .yahooOnly => yahoo.syms = []
  | .idxOnly => idx.syms = []
  | .manual => manualSyms = []

/-- Whitespace at the code-point level: the ASCII characters Python's
`str.strip()` and `str.split()` treat as whitespace. -/
def isWs (c : ℕ) : Bool := c = 32 || c = 9 || c = 10 || c = 13 || c = 11 || c = 12

/-- Embeds `str.upper()` on one ASCII code point. -/
def upperChar (c : ℕ) : ℕ := if 97 ≤ c ∧ c ≤ 122 then c - 32 else c

/-- Embeds `str.upper()` over a string of code points. -/
def pyUpper (s : List ℕ) : List ℕ := s.map upperChar

/-- Remove leading whitespace. -/
def ltrim (s : List ℕ) : List ℕ := s.dropWhile isWs

/-- Remove trailing whitespace. -/
def rtrim (s : List ℕ) : List ℕ := ((s.reverse).dropWhile isWs).reverse

/-- Embeds `str.strip()`: remove leading and trailing whitespace. -/
def pyStrip (s : List ℕ) : List ℕ := rtrim (ltrim s)

/-- The code points of `".JK"`. -/
def jkCodes : List ℕ := [46, 74, 75]

/-- Embeds `s.endswith(".JK")`. -/
def endsWithJK (s : List ℕ) : Bool := jkCodes.isSuffixOf s

/-- Embeds `s.split()[0]` on an already-stripped string: the first maximal run of
non-whitespace characters. -/
def firstToken (s : List ℕ) : List ℕ := s.takeWhile (fun c => !isWs c)

/-- Embeds `s.replace(",", "").replace(";", "").replace(".", "")`: drop every
comma (44), semicolon (59) and period (46). -/
def dropPunct (s : List ℕ) : List ℕ :=
  s.filter (fun c => !(c = 44 || c = 59 || c = 46))

/-- Embeds `_clean_to_jk_symbol(s)` at the code-point level: strip and uppercase;
empty maps to empty; a string already ending in `".JK"` is returned as is;
otherwise keep the first token, strip punctuation, and append `".JK"` (or
return empty if nothing remains). -/
def clean_to_jk_symbol (s : List ℕ) : List ℕ :=
  let s1 := pyUpper (pyStrip s)
  if s1 = [] then []
  else if endsWithJK s1 then s1
  else
    let s2 := pyStrip (firstToken s1)
    let s3 := dropPunct s2
    if s3 = [] then [] else s3 ++ jkCodes

/-- Does a screening outcome carry a result row? -/
def emitsRow : StockResult → Bool
  | .success (some _) => true
  | .success none => false
  | .failure _ _ => false

/-- An always-empty name map, used by concrete witnesses. -/
def noNames : String → Option String := fun _ => none

/-- A concrete ticker used by witnesses. -/
def tkA : String := "AAAA.JK"

/-- The spec's failing example history: closes `[100, 101, 103]`. -/
def histFail : List DailyBar := [⟨100, 1⟩, ⟨101, 1⟩, ⟨103, 1⟩]

/-- C2: a price history with fewer than `consecutiveDays + 1` bars makes
`process_single_stock` return the no-match outcome (success carrying no
row), never a failure. -/
theorem process_short_history_no_match (ticker : String) (hist : List DailyBar)
    (mtv thr : ℚ) (nd : ℕ) (ind : Bool) (nm : String → Option String)
    (ln : Option String) (h : hist.length < nd + 1) :
    process_single_stock ticker (.ok hist) mtv thr nd ind nm ln =
      .success none := by
  have h' : ¬ (nd + 1 ≤ hist.length) := by omega
  simp [process_single_stock, h']

/-- Witness for `process_short_history_no_match` at the empty history. -/
theorem process_short_history_no_match_witness :
    ([] : List DailyBar).length < 2 + 1 ∧
      process_single_stock tkA (.ok []) 0 2 2 false noNames none =
        .success none :=
  ⟨by decide, process_short_history_no_match tkA [] 0 2 2 false noNames none
    (by decide)⟩

/-- C3: whenever the consecutive-gain rule fails (including on short
histories), `process_single_stock` returns no row, whatever the turnover
threshold — the turnover rule is short-circuited. -/
theorem process_gain_fail_no_row (ticker : String) (hist : List DailyBar)
    (thr : ℚ) (nd : ℕ) (ind : Bool) (nm : String → Option String)
    (ln : Option String)
    (h : (check_consecutive_day_increase hist thr nd).1 = false) :
    ∀ mtv : ℚ, process_single_stock ticker (.ok hist) mtv thr nd ind nm ln =
      .success none := by
  intro mtv
  by_cases hlen : nd + 1 ≤ hist.length
  · simp [process_single_stock, hlen, h]
  · simp [process_single_stock, hlen]

/-- Witness for `process_gain_fail_no_row`: the spec's failing example
closes `[100, 101, 103]` with threshold `2`, screened against a zero
turnover threshold. -/
theorem process_gain_fail_no_row_witness :
    (check_consecutive_day_increase histFail 2 2).1 = false ∧
      process_single_stock tkA (.ok histFail) 0 2 2 false noNames none =
        .success none :=
  ⟨by norm_num [check_consecutive_day_increase, closes, pctChange, histFail],
   process_gain_fail_no_row tkA histFail 2 2 false noNames none
     (by norm_num [check_consecutive_day_increase, closes, pctChange, histFail]) 0⟩

/-- C7, both halves: the 20-period SMA of a constant-close history of at
least 20 bars is that constant, and on fewer than 20 bars it is `None`. -/
theorem calculate_sma_const (hist : List DailyBar) (c : ℚ) :
    (20 ≤ hist.length → (∀ b ∈ hist, b.close = c) →
      calculate_sma hist 20 = some c) ∧
    (hist.length < 20 → calculate_sma hist 20 = none) := by
  constructor
  · intro hlen hconst
    have h' : ¬ (hist.length < 20) := by omega
    have hlen' : (closes (hist.drop (hist.length - 20))).length = 20 := by
      simp [closes]
      omega
    have hall : ∀ b ∈ closes (hist.drop (hist.length - 20)), b = c := by
      intro b hb
      simp only [closes, List.mem_map] at hb
      obtain ⟨bar, hbar, rfl⟩ := hb
      exact hconst bar (List.mem_of_mem_drop hbar)
    have hrep : closes (hist.drop (hist.length - 20)) = List.replicate 20 c := by
      calc closes (hist.drop (hist.length - 20))
          = List.replicate (closes (hist.drop (hist.length - 20))).length c :=
            List.eq_replicate_length.mpr hall
        _ = List.replicate 20 c := by rw [hlen']
    simp only [calculate_sma, h', if_false, hrep, List.sum_replicate, nsmul_eq_mul]
    norm_num
  · intro hlen
    simp [calculate_sma, hlen]

/-- Witness for `calculate_sma_const`: both halves evaluated on a constant
history of 20 bars, and the short half on one of 19 bars. -/
theorem calculate_sma_const_witness :
    (20 ≤ (List.replicate 20 (⟨7, 1⟩ : DailyBar)).length ∧
      calculate_sma (List.replicate 20 (⟨7, 1⟩ : DailyBar)) 20 = some 7) ∧
    ((List.replicate 19 (⟨7, 1⟩ : DailyBar)).length < 20 ∧
      calculate_sma (List.replicate 19 (⟨7, 1⟩ : DailyBar)) 20 = none) :=
  ⟨⟨by decide,
    (calculate_sma_const (List.replicate 20 ⟨7, 1⟩) 7).1 (by decide)
      (fun b hb => (List.eq_of_mem_replicate hb) ▸ rfl)⟩,
   ⟨by decide,
    (calculate_sma_const (List.replicate 19 ⟨7, 1⟩) 7).2 (by decide)⟩⟩

/-- The batch scanner's fold, from any accumulator, appends exactly the
rows and failures of the remaining tickers, in input order. -/
theorem scan_foldl_eq (cfg : ScanConfig)
    (fetchOf : String → Except String (List DailyBar))
    (nm ln : String → Option String) :
    ∀ (ts : List String) (acc : List ScanRow × List ScanFailure),
      ts.foldl (scanStep cfg fetchOf nm ln) acc =
        (acc.1 ++ ts.filterMap (fun t => rowOf (evalTicker cfg fetchOf nm ln t)),
         acc.2 ++ ts.filterMap (fun t => failOf (evalTicker cfg fetchOf nm ln t))) := by
  intro ts
  induction ts with
  | nil => intro acc; simp
  | cons t ts ih =>
    intro acc
    rw [List.foldl_cons, ih]
    cases hres : evalTicker cfg fetchOf nm ln t with
    | success d =>
      cases d with
      | none => simp [scanStep, hres, rowOf, failOf, List.filterMap_cons]
      | some r => simp [scanStep, hres, rowOf, failOf, List.filterMap_cons]
    | failure tk e => simp [scanStep, hres, rowOf, failOf, List.filterMap_cons]

/-- C8: the batch scanner evaluates the supplied tickers in input order;
its row list (and its failure list) is exactly the in-order `filterMap` of
the per-ticker outcomes, so rows keep the relative order of the tickers
that produced them. -/
theorem scan_preserves_order (tickers : List String) (cfg : ScanConfig)
    (fetchOf : String → Except String (List DailyBar))
    (nm ln : String → Option String) :
    scan_stocks_with_progress tickers cfg fetchOf nm ln =
      (tickers.filterMap (fun t => rowOf (evalTicker cfg fetchOf nm ln t)),
       tickers.filterMap (fun t => failOf (evalTicker cfg fetchOf nm ln t))) := by
  simpa [scan_stocks_with_progress] using
    scan_foldl_eq cfg fetchOf nm ln tickers ([], [])

/-- C9: a ticker whose evaluation raises (an `Except.error` fetch) adds
exactly one failure record and no row, and leaves every other ticker's
contribution unchanged — the batch is not aborted. -/
theorem scan_failure_isolated (pre post : List String) (t e : String)
    (cfg : ScanConfig) (fetchOf : String → Except String (List DailyBar))
    (nm ln : String → Option String)
    (h : evalTicker cfg fetchOf nm ln t = .failure t e) :
    scan_stocks_with_progress (pre ++ t :: post) cfg fetchOf nm ln =
      ((scan_stocks_with_progress pre cfg fetchOf nm ln).1 ++
         (scan_stocks_with_progress post cfg fetchOf nm ln).1,
       (scan_stocks_with_progress pre cfg fetchOf nm ln).2 ++
         ⟨t, e⟩ :: (scan_stocks_with_progress post cfg fetchOf nm ln).2) := by
  have hpre := scan_foldl_eq cfg fetchOf nm ln pre ([], [])
  have hpost := scan_foldl_eq cfg fetchOf nm ln post ([], [])
  have hall := scan_foldl_eq cfg fetchOf nm ln (pre ++ t :: post) ([], [])
  simp only [scan_stocks_with_progress, hpre, hpost, hall, List.nil_append,
    List.filterMap_append, List.filterMap_cons, h, rowOf, failOf]

/-- Criteria used by concrete witnesses: the app's defaults (min turnover
15 billion, threshold 2%, 2 consecutive days, no indicators). -/
def cfgA : ScanConfig := ⟨15000000000, 2, 2, false⟩

/-- A ticker whose fetch fails in the witness scenario. -/
def tkBad : String := "XXXX.JK"

/-- A second healthy ticker for the witness scenario. -/
def tkB : String := "BBBB.JK"

/-- The provider error message of the witness scenario. -/
def errBoom : String := "network down"

/-- A provider that throws on `tkBad` and returns an empty history
otherwise. -/
def fetchBoom : String → Except String (List DailyBar) :=
  fun t => if t = tkBad then .error errBoom else .ok []

/-- Witness for `scan_failure_isolated`: a three-ticker batch whose middle
ticker's fetch throws. -/
theorem scan_failure_isolated_witness :
    evalTicker cfgA fetchBoom noNames noNames tkBad = .failure tkBad errBoom ∧
      scan_stocks_with_progress ([tkA] ++ tkBad :: [tkB]) cfgA fetchBoom noNames noNames =
        ((scan_stocks_with_progress [tkA] cfgA fetchBoom noNames noNames).1 ++
           (scan_stocks_with_progress [tkB] cfgA fetchBoom noNames noNames).1,
         (scan_stocks_with_progress [tkA] cfgA fetchBoom noNames noNames).2 ++
           ⟨tkBad, errBoom⟩ ::
             (scan_stocks_with_progress [tkB] cfgA fetchBoom noNames noNames).2) :=
  ⟨by simp [evalTicker, fetchBoom, process_single_stock],
   scan_failure_isolated [tkA] [tkB] tkBad errBoom cfgA fetchBoom noNames noNames
     (by simp [evalTicker, fetchBoom, process_single_stock])⟩

/-- C4: for every mode and every combination of source outcomes,
`resolve_universe` returns a non-empty ticker list; whenever the live (or
manual) sources come back empty it returns the static fallback list plus
the mode's diagnostic message.  Totality of the definition is the
no-exception-escapes guarantee. -/
theorem resolve_universe_never_empty (mode : SourceMode) (yahoo idx : FetchResult)
    (manualSyms : List String) (manualNames : NameMap) :
    (resolve_universe mode yahoo idx manualSyms manualNames).1 ≠ [] ∧
      (liveEmpty mode yahoo idx manualSyms →
        (resolve_universe mode yahoo idx manualSyms manualNames).1 =
            STATIC_FALLBACK ∧
          fallbackMsg mode ∈
            (resolve_universe mode yahoo idx manualSyms manualNames).2.2) := by
  have hsf : STATIC_FALLBACK ≠ [] := by simp [STATIC_FALLBACK]
  cases mode with
  | auto =>
    by_cases hy : yahoo.syms = []
    · by_cases hi : idx.syms = []
      · exact ⟨by simp [resolve_universe, hy, hi, hsf],
          fun _ => by simp [resolve_universe, hy, hi]⟩
      · exact ⟨by simp [resolve_universe, hy, hi],
          fun hl => absurd hl.2 hi⟩
    · exact ⟨by simp [resolve_universe, hy], fun hl => absurd hl.1 hy⟩
  | yahooOnly =>
    by_cases hy : yahoo.syms = []
    · exact ⟨by simp [resolve_universe, hy, hsf],
        fun _ => by simp [resolve_universe, hy]⟩
    · exact ⟨by simp [resolve_universe, hy], fun hl => absurd hl hy⟩
  | idxOnly =>
    by_cases hi : idx.syms = []
    · exact ⟨by simp [resolve_universe, hi, hsf],
        fun _ => by simp [resolve_universe, hi]⟩
    · exact ⟨by simp [resolve_universe, hi], fun hl => absurd hl hi⟩
  | manual =>
    by_cases hm : manualSyms = []
    · exact ⟨by simp [resolve_universe, hm, hsf],
        fun _ => by simp [resolve_universe, hm]⟩
    · exact ⟨by simp [resolve_universe, hm], fun hl => absurd hl hm⟩

/-- A fetch result in which the source produced nothing. -/
def emptyFetch : FetchResult := ⟨[], [], []⟩

/-- Witness for `resolve_universe_never_empty`: Auto mode with both live
sources empty falls back to the static list with a diagnostic. -/
theorem resolve_universe_never_empty_witness :
    (resolve_universe .auto emptyFetch emptyFetch [] []).1 ≠ [] ∧
      (resolve_universe .auto emptyFetch emptyFetch [] []).1 = STATIC_FALLBACK ∧
        fallbackMsg .auto ∈ (resolve_universe .auto emptyFetch emptyFetch [] []).2.2 :=
  ⟨(resolve_universe_never_empty .auto emptyFetch emptyFetch [] []).1,
   (resolve_universe_never_empty .auto emptyFetch emptyFetch [] []).2 ⟨rfl, rfl⟩⟩

/-- A degenerate one-symbol Yahoo result. -/
def yahooDegenerate : FetchResult := ⟨["ABCD.JK"], [("ABCD.JK", "Degenerate Corp")], []⟩

/-- A rich IDX result (the 20 static large caps). -/
def idxRich : FetchResult := ⟨STATIC_FALLBACK, staticNameMap, []⟩

/-- C5 counterexample: in Auto mode a degenerate single-symbol Yahoo
result is accepted as-is — the code's acceptance test is mere
non-emptiness, so no minimum-plausibility threshold greater than 2
exists, and resolution does not fall through to the (rich) next source. -/
theorem resolve_auto_accepts_degenerate :
    yahooDegenerate.syms.length = 1 ∧ 2 < idxRich.syms.length ∧
      (resolve_universe .auto yahooDegenerate idxRich [] []).1 =
        yahooDegenerate.syms := by
  refine ⟨rfl, by simp [idxRich, STATIC_FALLBACK], ?_⟩
  simp [resolve_universe, yahooDegenerate]

/-- C5 as amended: Auto mode tries Yahoo, then IDX, then the static list,
accepting the first source whose result is non-empty (size at least 1). -/
theorem resolve_auto_first_nonempty (yahoo idx : FetchResult)
    (manualSyms : List String) (manualNames : NameMap) :
    (yahoo.syms ≠ [] →
      resolve_universe .auto yahoo idx manualSyms manualNames =
        (yahoo.syms, yahoo.names, yahoo.errs)) ∧
    (yahoo.syms = [] → idx.syms ≠ [] →
      resolve_universe .auto yahoo idx manualSyms manualNames =
        (idx.syms, idx.names, yahoo.errs ++ idx.errs)) ∧
    (yahoo.syms = [] → idx.syms = [] →
      resolve_universe .auto yahoo idx manualSyms manualNames =
        (STATIC_FALLBACK, staticNameMap,
          yahoo.errs ++ idx.errs ++ [fallbackMsg .auto])) := by
  refine ⟨fun hy => ?_, fun hy hi => ?_, fun hy hi => ?_⟩
  · simp [resolve_universe, hy]
  · simp [resolve_universe, hy, hi]
  · simp [resolve_universe, hy, hi]

/-- Witness for `resolve_auto_first_nonempty`: with Yahoo empty and IDX
non-empty, Auto mode returns the IDX result. -/
theorem resolve_auto_first_nonempty_witness :
    resolve_universe .auto emptyFetch idxRich [] [] =
      (idxRich.syms, idxRich.names, emptyFetch.errs ++ idxRich.errs) :=
  (resolve_auto_first_nonempty emptyFetch idxRich [] []).2.1 rfl
    (by simp [idxRich, STATIC_FALLBACK])

/-- C1: with at least `consecutiveDays + 1` bars fetched, a result row is
emitted if and only if every one of the last `consecutiveDays` day-over-day
percentage changes is at least the threshold (equality passes) and the last
close times the last volume is at least the minimum turnover. -/
theorem process_emits_row_iff (ticker : String) (hist : List DailyBar)
    (mtv thr : ℚ) (nd : ℕ) (ind : Bool) (nm : String → Option String)
    (ln : Option String) (h : nd + 1 ≤ hist.length) :
    emitsRow (process_single_stock ticker (.ok hist) mtv thr nd ind nm ln) = true ↔
      ((∀ ch ∈ List.zipWith pctChange
            (closes (hist.drop (hist.length - (nd + 1))))
            (closes (hist.drop (hist.length - (nd + 1)))).tail, thr ≤ ch) ∧
        mtv ≤ (hist.getLastD ⟨0, 0⟩).close * (hist.getLastD ⟨0, 0⟩).volume) := by
  have hlt : ¬ (hist.length < nd + 1) := by omega
  have hne : hist ≠ [] := by
    intro e
    subst e
    simp at h
  obtain ⟨b, hb⟩ : ∃ b, hist.getLast? = some b := by
    cases hg : hist.getLast? with
    | none => exact absurd (List.getLast?_eq_none_iff.mp hg) hne
    | some b => exact ⟨b, rfl⟩
  have htv : calculate_trading_value hist =
      (hist.getLastD ⟨0, 0⟩).close * (hist.getLastD ⟨0, 0⟩).volume := by
    simp [calculate_trading_value, hb, List.getLastD_eq_getLast?]
  simp only [process_single_stock, h, if_true, check_consecutive_day_increase, hlt,
    if_false]
  rw [← htv]
  simp only [List.all_eq_true, decide_eq_true_eq]
  by_cases hall : ∀ ch ∈ List.zipWith pctChange
      (closes (hist.drop (hist.length - (nd + 1))))
      (closes (hist.drop (hist.length - (nd + 1)))).tail, thr ≤ ch
  · rw [if_pos hall]
    by_cases htv2 : mtv ≤ calculate_trading_value hist
    · rw [if_pos htv2]
      simp only [emitsRow, true_iff]
      exact ⟨fun x hx => hall x hx, htv2⟩
    · rw [if_neg htv2]
      simp [emitsRow, htv2]
  · rw [if_neg hall]
    simp [emitsRow, hall]

/-- The spec's passing example history (closes `[100, 102, 104.1]`), with a
last volume making the turnover pass the default threshold. -/
def histPass : List DailyBar := [⟨100, 1⟩, ⟨102, 1⟩, ⟨1041/10, 200000000⟩]

/-- Witness for `process_emits_row_iff`: the passing example emits a row. -/
theorem process_emits_row_iff_witness :
    2 + 1 ≤ histPass.length ∧
      emitsRow (process_single_stock tkA (.ok histPass) 15000000000 2 2 false
        noNames none) = true :=
  ⟨by decide,
   (process_emits_row_iff tkA histPass 15000000000 2 2 false noNames none
       (by decide)).mpr
     (by norm_num [histPass, closes, pctChange])⟩


/-- A series of `n` prices has `n - 1` consecutive differences. -/
theorem priceDiffs_length (l : List ℚ) : (priceDiffs l).length = l.length - 1 := by
  simp [priceDiffs]

/-- On a strictly increasing series every consecutive difference is positive. -/
theorem chain'_lt_priceDiffs : ∀ l : List ℚ, List.Chain' (· < ·) l →
    ∀ d ∈ priceDiffs l, 0 < d := by
  intro l
  induction l with
  | nil => simp [priceDiffs]
  | cons a t ih =>
    cases t with
    | nil => simp [priceDiffs]
    | cons b t' =>
      intro hc d hd
      rw [List.chain'_cons] at hc
      simp only [priceDiffs, List.tail_cons, List.zipWith_cons_cons] at hd
      rcases List.mem_cons.mp hd with rfl | hmem
      · linarith [hc.1]
      · exact ih hc.2 d hmem

/-- On a strictly decreasing series every consecutive difference is negative. -/
theorem chain'_gt_priceDiffs : ∀ l : List ℚ, List.Chain' (· > ·) l →
    ∀ d ∈ priceDiffs l, d < 0 := by
  intro l
  induction l with
  | nil => simp [priceDiffs]
  | cons a t ih =>
    cases t with
    | nil => simp [priceDiffs]
    | cons b t' =>
      intro hc d hd
      rw [List.chain'_cons] at hc
      simp only [priceDiffs, List.tail_cons, List.zipWith_cons_cons] at hd
      rcases List.mem_cons.mp hd with rfl | hmem
      · have : b < a := hc.1
        linarith
      · exact ih hc.2 d hmem

/-- The exponentially weighted mean of non-negative inputs stays non-negative. -/
theorem foldl_ewmStep_nonneg (α : ℚ) (h0 : 0 ≤ α) (h1 : α ≤ 1) :
    ∀ (xs : List ℚ) (a : ℚ), 0 ≤ a → (∀ x ∈ xs, 0 ≤ x) →
      0 ≤ xs.foldl (ewmStep α) a := by
  intro xs
  induction xs with
  | nil => intro a ha _; simpa using ha
  | cons x t ih =>
    intro a ha hx
    rw [List.foldl_cons]
    apply ih
    · have hx0 : 0 ≤ x := hx x (List.mem_cons_self x t)
      have h2 : 0 ≤ (1 - α) * a := mul_nonneg (by linarith) ha
      have h3 : 0 ≤ α * x := mul_nonneg h0 hx0
      unfold ewmStep
      linarith
    · intro y hy
      exact hx y (List.mem_cons_of_mem _ hy)

/-- The exponentially weighted mean of positive inputs is positive. -/
theorem foldl_ewmStep_pos (α : ℚ) (h0 : 0 < α) (h1 : α < 1) :
    ∀ (xs : List ℚ) (a : ℚ), 0 ≤ a → (∀ x ∈ xs, 0 < x) → xs ≠ [] →
      0 < xs.foldl (ewmStep α) a := by
  intro xs
  induction xs with
  | nil => intro a _ _ hne; exact absurd rfl hne
  | cons x t ih =>
    intro a ha hx _
    rw [List.foldl_cons]
    have hxpos : 0 < x := hx x (List.mem_cons_self x t)
    have hstep : 0 < ewmStep α a x := by
      have h2 : 0 ≤ (1 - α) * a := mul_nonneg (by linarith) ha
      have h3 : 0 < α * x := mul_pos h0 hxpos
      unfold ewmStep
      linarith
    cases t with
    | nil => simpa using hstep
    | cons y t' =>
      exact ih (ewmStep α a x) (le_of_lt hstep)
        (fun z hz => hx z (List.mem_cons_of_mem _ hz)) (by simp)

/-- The exponentially weighted mean of an all-zero series is zero. -/
theorem foldl_ewmStep_zero (α : ℚ) : ∀ xs : List ℚ, (∀ x ∈ xs, x = 0) →
    xs.foldl (ewmStep α) 0 = 0 := by
  intro xs
  induction xs with
  | nil => simp
  | cons x t ih =>
    intro hx
    rw [List.foldl_cons]
    have hx0 : x = 0 := hx x (List.mem_cons_self x t)
    have hz : ewmStep α 0 x = 0 := by
      unfold ewmStep
      rw [hx0]
      ring
    rw [hz]
    exact ih (fun y hy => hx y (List.mem_cons_of_mem _ hy))

/-- With only positive differences the smoothed average loss is zero. -/
theorem avgLoss_eq_zero_of_pos_diffs (hist : List DailyBar) (p : ℕ)
    (h : ∀ d ∈ priceDiffs (closes hist), 0 < d) : avgLoss hist p = 0 := by
  unfold avgLoss lossesOf
  show (List.map _ (priceDiffs (closes hist))).foldl (ewmStep (1 / p)) 0 = 0
  apply foldl_ewmStep_zero
  intro x hx
  obtain ⟨d, hd, rfl⟩ := List.mem_map.mp hx
  have hdpos := h d hd
  rw [if_neg (by linarith)]

/-- With only negative differences the smoothed average gain is zero. -/
theorem avgGain_eq_zero_of_neg_diffs (hist : List DailyBar) (p : ℕ)
    (h : ∀ d ∈ priceDiffs (closes hist), d < 0) : avgGain hist p = 0 := by
  unfold avgGain gainsOf
  show (List.map _ (priceDiffs (closes hist))).foldl (ewmStep (1 / p)) 0 = 0
  apply foldl_ewmStep_zero
  intro x hx
  obtain ⟨d, hd, rfl⟩ := List.mem_map.mp hx
  have hdneg := h d hd
  rw [if_neg (by linarith)]

/-- With only positive differences (and at least one) the smoothed average
gain is positive. -/
theorem avgGain_pos_of_pos_diffs (hist : List DailyBar)
    (hlen : 2 ≤ hist.length)
    (h : ∀ d ∈ priceDiffs (closes hist), 0 < d) : 0 < avgGain hist 14 := by
  unfold avgGain gainsOf
  show 0 < (List.map _ (priceDiffs (closes hist))).foldl (ewmStep (1 / 14)) 0
  apply foldl_ewmStep_pos (1 / 14) (by norm_num) (by norm_num)
  · exact le_refl 0
  · intro x hx
    obtain ⟨d, hd, rfl⟩ := List.mem_map.mp hx
    have hdpos := h d hd
    rw [if_pos hdpos]
    exact hdpos
  · have : (priceDiffs (closes hist)).length = hist.length - 1 := by
      rw [priceDiffs_length]
      simp [closes]
    intro hnil
    rw [List.map_eq_nil_iff] at hnil
    rw [hnil] at this
    simp at this
    omega

/-- With only negative differences (and at least one) the smoothed average
loss is positive. -/
theorem avgLoss_pos_of_neg_diffs (hist : List DailyBar)
    (hlen : 2 ≤ hist.length)
    (h : ∀ d ∈ priceDiffs (closes hist), d < 0) : 0 < avgLoss hist 14 := by
  unfold avgLoss lossesOf
  show 0 < (List.map _ (priceDiffs (closes hist))).foldl (ewmStep (1 / 14)) 0
  apply foldl_ewmStep_pos (1 / 14) (by norm_num) (by norm_num)
  · exact le_refl 0
  · intro x hx
    obtain ⟨d, hd, rfl⟩ := List.mem_map.mp hx
    have hdneg := h d hd
    rw [if_pos hdneg]
    linarith
  · have : (priceDiffs (closes hist)).length = hist.length - 1 := by
      rw [priceDiffs_length]
      simp [closes]
    intro hnil
    rw [List.map_eq_nil_iff] at hnil
    rw [hnil] at this
    simp at this
    omega

/-- A zero smoothed average loss with a positive smoothed average gain gives
RSI exactly 100. -/
theorem calculate_rsi_ll_zero (hist : List DailyBar) (h : 15 ≤ hist.length)
    (hll : avgLoss hist 14 = 0) (hlg : 0 < avgGain hist 14) :
    calculate_rsi hist 14 = some 100 := by
  have hlt : ¬ (hist.length < 14 + 1) := by omega
  simp [calculate_rsi, hlt, hll, hlg]

/-- A zero smoothed average gain with a non-zero smoothed average loss gives
RSI exactly 0. -/
theorem calculate_rsi_lg_zero (hist : List DailyBar) (h : 15 ≤ hist.length)
    (hll : avgLoss hist 14 ≠ 0) (hlg : avgGain hist 14 = 0) :
    calculate_rsi hist 14 = some 0 := by
  have hlt : ¬ (hist.length < 14 + 1) := by omega
  simp [calculate_rsi, hlt, hll, hlg]


/-- C6: on a history of at least 15 bars, `calculate_rsi` obeys the
degenerate-case rules: zero smoothed loss with positive smoothed gain gives
exactly 100; positive smoothed loss with zero smoothed gain gives exactly 0;
zero gain and zero loss gives 50; in particular a strictly increasing close
series gives RSI 100 and a strictly decreasing one gives RSI 0. -/
theorem calculate_rsi_degenerate (hist : List DailyBar) (h : 15 ≤ hist.length) :
    (avgLoss hist 14 = 0 → 0 < avgGain hist 14 → calculate_rsi hist 14 = some 100) ∧
    (0 < avgLoss hist 14 → avgGain hist 14 = 0 → calculate_rsi hist 14 = some 0) ∧
    (avgGain hist 14 = 0 → avgLoss hist 14 = 0 → calculate_rsi hist 14 = some 50) ∧
    (List.Chain' (· < ·) (closes hist) → calculate_rsi hist 14 = some 100) ∧
    (List.Chain' (· > ·) (closes hist) → calculate_rsi hist 14 = some 0) := by
  have hlt : ¬ (hist.length < 14 + 1) := by omega
  have hlen2 : 2 ≤ hist.length := by omega
  refine ⟨?_, ?_, ?_, ?_, ?_⟩
  · exact fun hll hlg => calculate_rsi_ll_zero hist h hll hlg
  · exact fun hll hlg => calculate_rsi_lg_zero hist h (ne_of_gt hll) hlg
  · intro hlg hll
    simp [calculate_rsi, hlt, hll, hlg]
  · intro hc
    have hdiff := chain'_lt_priceDiffs (closes hist) hc
    exact calculate_rsi_ll_zero hist h (avgLoss_eq_zero_of_pos_diffs hist 14 hdiff)
      (avgGain_pos_of_pos_diffs hist hlen2 hdiff)
  · intro hc
    have hdiff := chain'_gt_priceDiffs (closes hist) hc
    exact calculate_rsi_lg_zero hist h
      (ne_of_gt (avgLoss_pos_of_neg_diffs hist hlen2 hdiff))
      (avgGain_eq_zero_of_neg_diffs hist 14 hdiff)

/-- A concrete strictly increasing 15-bar history. -/
def hist15 : List DailyBar :=
  [⟨1, 1⟩, ⟨2, 1⟩, ⟨3, 1⟩, ⟨4, 1⟩, ⟨5, 1⟩, ⟨6, 1⟩, ⟨7, 1⟩, ⟨8, 1⟩,
   ⟨9, 1⟩, ⟨10, 1⟩, ⟨11, 1⟩, ⟨12, 1⟩, ⟨13, 1⟩, ⟨14, 1⟩, ⟨15, 1⟩]

/-- Witness for `calculate_rsi_degenerate`: the strictly increasing 15-bar
history has RSI exactly 100. -/
theorem calculate_rsi_degenerate_witness :
    15 ≤ hist15.length ∧ calculate_rsi hist15 14 = some 100 :=
  ⟨by decide, (calculate_rsi_degenerate hist15 (by decide)).2.2.2.1
    (by norm_num [hist15, closes, List.chain'_cons, List.chain'_singleton])⟩


/-- Uppercasing never yields a lowercase letter. -/
theorem upperChar_not_lower (c : ℕ) : ¬ (97 ≤ upperChar c ∧ upperChar c ≤ 122) := by
  unfold upperChar
  split_ifs with h <;> omega

/-- Uppercasing fixes a character that is not a lowercase letter. -/
theorem upperChar_eq_self {c : ℕ} (h : ¬ (97 ≤ c ∧ c ≤ 122)) : upperChar c = c :=
  if_neg h

/-- Uppercasing a character twice is the same as doing it once. -/
theorem upperChar_idem (c : ℕ) : upperChar (upperChar c) = upperChar c :=
  upperChar_eq_self (upperChar_not_lower c)

/-- Uppercasing does not change whether a character is whitespace. -/
theorem isWs_upperChar (c : ℕ) : isWs (upperChar c) = isWs c := by
  rw [Bool.eq_iff_iff]
  simp only [isWs, upperChar, Bool.or_eq_true, decide_eq_true_eq]
  split_ifs with h <;> omega

/-- The head of `dropWhile p` fails `p`. -/
theorem head?_dropWhile {p : ℕ → Bool} :
    ∀ {l : List ℕ} {h : ℕ}, (l.dropWhile p).head? = some h → p h = false := by
  intro l
  induction l with
  | nil => intro h hh; simp [List.dropWhile] at hh
  | cons a t ih =>
    intro h hh
    rw [List.dropWhile_cons] at hh
    by_cases hp : p a
    · rw [if_pos hp] at hh
      exact ih hh
    · rw [if_neg hp] at hh
      simp only [List.head?_cons, Option.some.injEq] at hh
      rw [← hh]
      simpa using hp

/-- A non-empty suffix has the same last element as the whole list. -/
theorem getLast?_of_suffix {l₁ l₂ : List ℕ} (h : l₁ <:+ l₂) (hne : l₁ ≠ []) :
    l₂.getLast? = l₁.getLast? := by
  obtain ⟨w, rfl⟩ := h
  exact List.getLast?_append_of_ne_nil w hne

/-- A string with no leading and no trailing whitespace. -/
def noWsEnds (l : List ℕ) : Prop :=
  (∀ h ∈ l.head?, isWs h = false) ∧ (∀ h ∈ l.getLast?, isWs h = false)

/-- Stripping fixes a string with no whitespace at either end. -/
theorem pyStrip_eq_self {l : List ℕ} (h : noWsEnds l) : pyStrip l = l := by
  have hl : ltrim l = l := by
    cases l with
    | nil => rfl
    | cons a t =>
      unfold ltrim
      rw [List.dropWhile_cons, h.1 a (by simp)]
      simp
  unfold pyStrip
  rw [hl]
  unfold rtrim
  have hr : l.reverse.dropWhile isWs = l.reverse := by
    cases hrev : l.reverse with
    | nil => simp
    | cons a t =>
      rw [List.dropWhile_cons]
      have hlast : l.getLast? = some a := by
        rw [← List.head?_reverse, hrev]
        rfl
      rw [h.2 a (by rw [hlast]; rfl)]
      simp
  rw [hr, List.reverse_reverse]

/-- A stripped string has no whitespace at either end. -/
theorem noWsEnds_pyStrip (l : List ℕ) : noWsEnds (pyStrip l) := by
  constructor
  · intro h hh
    rw [Option.mem_def] at hh
    unfold pyStrip rtrim at hh
    rw [List.head?_reverse] at hh
    have hune : (ltrim l).reverse.dropWhile isWs ≠ [] := by
      intro e
      rw [e] at hh
      simp at hh
    have heq : (ltrim l).reverse.getLast? =
        ((ltrim l).reverse.dropWhile isWs).getLast? :=
      getLast?_of_suffix (List.dropWhile_suffix isWs) hune
    rw [← heq] at hh
    rw [List.getLast?_reverse] at hh
    exact head?_dropWhile hh
  · intro h hh
    rw [Option.mem_def] at hh
    unfold pyStrip rtrim at hh
    rw [List.getLast?_reverse] at hh
    exact head?_dropWhile hh

/-- Stripping is idempotent. -/
theorem pyStrip_idem (l : List ℕ) : pyStrip (pyStrip l) = pyStrip l :=
  pyStrip_eq_self (noWsEnds_pyStrip l)

/-- Stripping commutes with uppercasing. -/
theorem pyStrip_pyUpper (l : List ℕ) : pyStrip (pyUpper l) = pyUpper (pyStrip l) := by
  have hp : isWs ∘ upperChar = isWs := funext isWs_upperChar
  unfold pyStrip pyUpper ltrim rtrim
  rw [List.dropWhile_map, hp, ← List.map_reverse, List.dropWhile_map, hp,
    ← List.map_reverse]

/-- Every character of a stripped string comes from the original. -/
theorem mem_pyStrip {c : ℕ} {l : List ℕ} (h : c ∈ pyStrip l) : c ∈ l := by
  unfold pyStrip rtrim ltrim at h
  rw [List.mem_reverse] at h
  have h2 : c ∈ (l.dropWhile isWs).reverse :=
    (List.dropWhile_suffix isWs).mem h
  rw [List.mem_reverse] at h2
  exact (List.dropWhile_suffix isWs).mem h2

/-- No character of the first token is whitespace. -/
theorem mem_firstToken_not_ws {c : ℕ} {l : List ℕ} (h : c ∈ firstToken l) :
    isWs c = false := by
  unfold firstToken at h
  have := List.mem_takeWhile_imp h
  simpa using this

/-- Every character of the first token comes from the original. -/
theorem mem_firstToken {c : ℕ} {l : List ℕ} (h : c ∈ firstToken l) : c ∈ l :=
  (List.takeWhile_prefix _).mem h


/-- Every non-empty output of the cleaner is stripped, uppercase, and ends
with the `.JK` suffix. -/
theorem clean_output_spec (s : List ℕ) :
    clean_to_jk_symbol s = [] ∨
      (pyStrip (clean_to_jk_symbol s) = clean_to_jk_symbol s ∧
       pyUpper (clean_to_jk_symbol s) = clean_to_jk_symbol s ∧
       endsWithJK (clean_to_jk_symbol s) = true ∧
       ∀ c ∈ clean_to_jk_symbol s, ¬ (97 ≤ c ∧ c ≤ 122)) := by
  unfold clean_to_jk_symbol
  by_cases h1 : pyUpper (pyStrip s) = []
  · left
    simp [h1]
  · rw [if_neg h1]
    by_cases h2 : endsWithJK (pyUpper (pyStrip s)) = true
    · rw [if_pos h2]
      right
      refine ⟨?_, ?_, h2, ?_⟩
      · rw [pyStrip_pyUpper, pyStrip_idem]
      · unfold pyUpper
        rw [List.map_map]
        exact List.map_congr_left (fun a _ => upperChar_idem a)
      · intro c hc
        obtain ⟨d, hd, rfl⟩ := List.mem_map.mp hc
        exact upperChar_not_lower d
    · rw [if_neg h2]
      by_cases h3 : dropPunct (pyStrip (firstToken (pyUpper (pyStrip s)))) = []
      · left
        simp [h3]
      · rw [if_neg h3]
        right
      
        have hmem : ∀ c ∈ dropPunct (pyStrip (firstToken (pyUpper (pyStrip s)))) ++ jkCodes,
            isWs c = false ∧ ¬ (97 ≤ c ∧ c ≤ 122) := by
          intro c hc
          rcases List.mem_append.mp hc with hc | hc
          · have hc2 : c ∈ pyStrip (firstToken (pyUpper (pyStrip s))) :=
              (List.mem_filter.mp hc).1
            have hc3 : c ∈ firstToken (pyUpper (pyStrip s)) := mem_pyStrip hc2
            refine ⟨mem_firstToken_not_ws hc3, ?_⟩
            have hc4 : c ∈ pyUpper (pyStrip s) := mem_firstToken hc3
            obtain ⟨d, hd, rfl⟩ := List.mem_map.mp hc4
            exact upperChar_not_lower d
          · unfold jkCodes at hc
            rcases List.mem_cons.mp hc with rfl | hc
            · exact ⟨rfl, by omega⟩
            rcases List.mem_cons.mp hc with rfl | hc
            · exact ⟨rfl, by omega⟩
            rcases List.mem_cons.mp hc with rfl | hc
            · exact ⟨rfl, by omega⟩
            · simp at hc
        refine ⟨?_, ?_, ?_, fun c hc => (hmem c hc).2⟩
        · apply pyStrip_eq_self
          constructor
          · intro h hh
            rw [Option.mem_def] at hh
            obtain ⟨ys, hys⟩ := List.head?_eq_some_iff.mp hh
            exact (hmem h (by rw [hys]; exact List.mem_cons_self h ys)).1
          · intro h hh
            rw [Option.mem_def] at hh
            exact (hmem h (List.mem_of_getLast?_eq_some hh)).1
        · unfold pyUpper
          refine Eq.trans (List.map_congr_left fun a ha => ?_) (List.map_id _)
          exact upperChar_eq_self (hmem a ha).2
        · unfold endsWithJK
          rw [List.isSuffixOf_iff_suffix]
          exact List.suffix_append _ jkCodes

/-- The cleaner fixes any non-empty stripped uppercase string that already
ends with the `.JK` suffix. -/
theorem clean_fixed {o : List ℕ} (hstrip : pyStrip o = o) (hupper : pyUpper o = o)
    (hends : endsWithJK o = true) (hne : o ≠ []) : clean_to_jk_symbol o = o := by
  unfold clean_to_jk_symbol
  rw [hstrip, hupper, if_neg hne, if_pos hends]

/-- C10: the manual-input ticker cleaner is idempotent, and every non-empty
output ends with the `.JK` market suffix and contains no lowercase letter. -/
theorem clean_to_jk_symbol_spec (s : List ℕ) :
    clean_to_jk_symbol (clean_to_jk_symbol s) = clean_to_jk_symbol s ∧
      (clean_to_jk_symbol s ≠ [] →
        endsWithJK (clean_to_jk_symbol s) = true ∧
        ∀ c ∈ clean_to_jk_symbol s, ¬ (97 ≤ c ∧ c ≤ 122)) := by
  rcases clean_output_spec s with h | ⟨hstrip, hupper, hends, hlow⟩
  · rw [h]
    exact ⟨rfl, fun hne => absurd rfl hne⟩
  · have hne : clean_to_jk_symbol s ≠ [] := by
      intro e
      rw [e] at hends
      simp [endsWithJK, jkCodes] at hends
    exact ⟨clean_fixed hstrip hupper hends hne, fun _ => ⟨hends, hlow⟩⟩

/-- The code points of `" bbca "`. -/
def bbcaCodes : List ℕ := [32, 98, 98, 99, 97, 32]

/-- Witness for `clean_to_jk_symbol_spec` at the input `" bbca "`. -/
theorem clean_to_jk_symbol_spec_witness :
    clean_to_jk_symbol (clean_to_jk_symbol bbcaCodes) = clean_to_jk_symbol bbcaCodes ∧
      (clean_to_jk_symbol bbcaCodes ≠ [] ∧
        endsWithJK (clean_to_jk_symbol bbcaCodes) = true ∧
        ∀ c ∈ clean_to_jk_symbol bbcaCodes, ¬ (97 ≤ c ∧ c ≤ 122)) :=
  ⟨(clean_to_jk_symbol_spec bbcaCodes).1,
   by decide,
   (clean_to_jk_symbol_spec bbcaCodes).2 (by decide)⟩

end StockApp
